import Mathlib

/-!
Verification of the adaptive word-selection engine and the answer validator
of the Oxford vocabulary trainer.

The definitions below are a shallow embedding of the Python sources:
* `WordRecord`, `new_word_stats`, `base_weight_of`, `consecutive_modifier_of`,
  `attempt_modifier_of`, `calculate_adaptive_weight`, `update_word_performance`
  embed `src/word_picker.py` (lines 41-62 and 107-210);
* `validate_user_input` together with its helpers embeds
  `validate_user_input` of `src/utils.py` (lines 110-144);
* `get_weighted_word` embeds `src/word_picker.py` lines 64-105, with the
  pseudo-random index of `random.choices` / `random.choice` supplied as an
  explicit `pick` parameter.

Floating-point weights are modelled as rationals; all arithmetic involved
uses short decimal fractions on human-scale counts, where IEEE doubles and
exact rationals agree.
-/

namespace Oxford

/-- Per-word performance record, one per (word, class, level) key.
Mirrors the dict stored in `word_weights` of `src/word_picker.py`. -/
structure WordRecord where
  weight : ℚ
  correct_count : ℕ
  wrong_count : ℕ
  total_attempts : ℕ
  last_seen : Option String
  consecutive_correct : ℕ
  consecutive_wrong : ℕ
  deriving Repr, DecidableEq

/-- The default record created by `_initialize_new_words`,
`update_word_performance` (lazy init) and `reset_word_stats`. -/
def new_word_stats : WordRecord :=
  { weight := 1.0, correct_count := 0, wrong_count := 0, total_attempts := 0,
    last_seen := none, consecutive_correct := 0, consecutive_wrong := 0 }

/-- Accuracy-bracket base weight of `_calculate_adaptive_weight`
(`word_picker.py` lines 176-186). -/
def base_weight_of (stats : WordRecord) : ℚ :=
  let accuracy : ℚ := (stats.correct_count : ℚ) / (stats.total_attempts : ℚ)
  if accuracy ≥ 0.8 then 0.3
  else if accuracy ≥ 0.6 then 0.7
  else if accuracy ≥ 0.4 then 1.2
  else 2.0

/-- Consecutive-performance multiplier of `_calculate_adaptive_weight`
(`word_picker.py` lines 188-196). -/
def consecutive_modifier_of (stats : WordRecord) : ℚ :=
  if stats.consecutive_correct ≥ 3 then 0.5
  else if stats.consecutive_wrong ≥ 2 then 2.5
  else 1.0

/-- Attempt-count multiplier of `_calculate_adaptive_weight`
(`word_picker.py` lines 198-204). -/
def attempt_modifier_of (stats : WordRecord) : ℚ :=
  if stats.total_attempts ≤ 3 then 1.2
  else if stats.total_attempts ≥ 10 then 0.9
  else 1.0

/-- `_calculate_adaptive_weight` of `word_picker.py` (lines 157-210). -/
def calculate_adaptive_weight (stats : WordRecord) : ℚ :=
  if stats.total_attempts = 0 then 1.0
  else
    let final_weight :=
      base_weight_of stats * consecutive_modifier_of stats * attempt_modifier_of stats
    max 0.1 (min 5.0 final_weight)

/-- The statistics update of `update_word_performance` (`word_picker.py`
lines 131-148) on a single record; `now` is the `last_seen` timestamp. -/
def update_word_performance (stats : WordRecord) (is_correct : Bool) (now : String) :
    WordRecord :=
  let s1 : WordRecord :=
    { stats with total_attempts := stats.total_attempts + 1, last_seen := some now }
  let s2 : WordRecord :=
    if is_correct then
      { s1 with correct_count := s1.correct_count + 1,
                consecutive_correct := s1.consecutive_correct + 1,
                consecutive_wrong := 0 }
    else
      { s1 with wrong_count := s1.wrong_count + 1,
                consecutive_wrong := s1.consecutive_wrong + 1,
                consecutive_correct := 0 }
  { s2 with weight := calculate_adaptive_weight s2 }

/-- A sequence of `update_word_performance` calls, oldest first. -/
def recordOutcomes (stats : WordRecord) (outcomes : List (Bool × String)) : WordRecord :=
  outcomes.foldl (fun s o => update_word_performance s o.1 o.2) stats

/-- `clamp(x, lo, hi)` as written in the specification. -/
def specClamp (lo hi x : ℚ) : ℚ := max lo (min hi x)

/-- The base weight exactly as the specification words it:
0.3 if accuracy ≥ 0.8, 0.7 if 0.6 ≤ accuracy < 0.8,
1.2 if 0.4 ≤ accuracy < 0.6, 2.0 if accuracy < 0.4. -/
def specBaseWeight (accuracy : ℚ) : ℚ :=
  if accuracy ≥ 0.8 then 0.3
  else if 0.6 ≤ accuracy ∧ accuracy < 0.8 then 0.7
  else if 0.4 ≤ accuracy ∧ accuracy < 0.6 then 1.2
  else 2.0

/-- The consecutive-streak multiplier as the specification words it. -/
def specConsecutiveMult (r : WordRecord) : ℚ :=
  if r.consecutive_correct ≥ 3 then 0.5
  else if r.consecutive_wrong ≥ 2 then 2.5
  else 1.0

/-- The attempt-count multiplier as the specification words it. -/
def specAttemptMult (r : WordRecord) : ℚ :=
  if r.total_attempts ≤ 3 then 1.2
  else if r.total_attempts ≥ 10 then 0.9
  else 1.0

lemma base_weight_eq_spec (r : WordRecord) :
    base_weight_of r = specBaseWeight ((r.correct_count : ℚ) / (r.total_attempts : ℚ)) := by
  simp only [base_weight_of, specBaseWeight]
  by_cases h1 : (r.correct_count : ℚ) / (r.total_attempts : ℚ) ≥ 0.8
  · simp [h1]
  · by_cases h2 : (r.correct_count : ℚ) / (r.total_attempts : ℚ) ≥ 0.6
    · have hlt : (r.correct_count : ℚ) / (r.total_attempts : ℚ) < 0.8 := lt_of_not_ge h1
      simp [h1, h2, hlt]
    · by_cases h3 : (r.correct_count : ℚ) / (r.total_attempts : ℚ) ≥ 0.4
      · have hlt : (r.correct_count : ℚ) / (r.total_attempts : ℚ) < 0.6 := lt_of_not_ge h2
        simp [h1, h2, h3, hlt]
      · simp [h1, h2, h3]

lemma consecutive_mult_eq_spec (r : WordRecord) :
    consecutive_modifier_of r = specConsecutiveMult r := rfl

lemma attempt_mult_eq_spec (r : WordRecord) :
    attempt_modifier_of r = specAttemptMult r := rfl

lemma calculate_eq_clamp (r : WordRecord) (h : r.total_attempts ≠ 0) :
    calculate_adaptive_weight r
      = specClamp 0.1 5.0
          (specBaseWeight ((r.correct_count : ℚ) / (r.total_attempts : ℚ))
            * specConsecutiveMult r * specAttemptMult r) := by
  unfold calculate_adaptive_weight specClamp
  rw [if_neg h, base_weight_eq_spec, consecutive_mult_eq_spec, attempt_mult_eq_spec]

lemma update_total_attempts (r : WordRecord) (b : Bool) (now : String) :
    (update_word_performance r b now).total_attempts = r.total_attempts + 1 := by
  cases b <;> rfl

lemma update_weight_eq (r : WordRecord) (b : Bool) (now : String) :
    (update_word_performance r b now).weight
      = calculate_adaptive_weight (update_word_performance r b now) := by
  cases b <;>
    simp [update_word_performance, calculate_adaptive_weight, base_weight_of,
      consecutive_modifier_of, attempt_modifier_of]

/-- C1: for every record produced by `recordOutcome` (which always has
`total_attempts > 0`) the recomputed weight equals
`clamp(base * consecutive-mult * attempt-mult, 0.1, 5.0)` with the base given
by the accuracy brackets of the specification, and a record with
`total_attempts = 0` gets weight 1.0. -/
theorem C1_adaptive_weight_formula (r : WordRecord) (b : Bool) (now : String) :
    0 < (update_word_performance r b now).total_attempts ∧
    (update_word_performance r b now).weight
      = specClamp 0.1 5.0
          (specBaseWeight (((update_word_performance r b now).correct_count : ℚ)
              / ((update_word_performance r b now).total_attempts : ℚ))
            * specConsecutiveMult (update_word_performance r b now)
            * specAttemptMult (update_word_performance r b now)) ∧
    (∀ s : WordRecord, s.total_attempts = 0 → calculate_adaptive_weight s = 1.0) := by
  refine ⟨?_, ?_, ?_⟩
  · rw [update_total_attempts]; omega
  · rw [update_weight_eq, calculate_eq_clamp]
    rw [update_total_attempts]; omega
  · intro s hs
    unfold calculate_adaptive_weight
    rw [if_pos hs]

/-- Witness for C1 at a concrete record. -/
theorem C1_adaptive_weight_formula_witness :
    calculate_adaptive_weight new_word_stats = 1.0 ∧
    (update_word_performance new_word_stats true "t").weight
      = specClamp 0.1 5.0
          (specBaseWeight (((update_word_performance new_word_stats true "t").correct_count : ℚ)
              / ((update_word_performance new_word_stats true "t").total_attempts : ℚ))
            * specConsecutiveMult (update_word_performance new_word_stats true "t")
            * specAttemptMult (update_word_performance new_word_stats true "t")) :=
  ⟨(C1_adaptive_weight_formula new_word_stats true "t").2.2 new_word_stats rfl,
   (C1_adaptive_weight_formula new_word_stats true "t").2.1⟩

lemma update_weight_bounds (r : WordRecord) (b : Bool) (now : String) :
    0.1 ≤ (update_word_performance r b now).weight ∧
    (update_word_performance r b now).weight ≤ 5.0 := by
  rw [update_weight_eq]
  unfold calculate_adaptive_weight
  rw [if_neg (by rw [update_total_attempts]; omega)]
  constructor
  · exact le_max_left _ _
  · exact max_le (by norm_num) (min_le_left _ _)

/-- C4: after any `recordOutcome` call, for any starting record and any
sequence of outcomes, the stored weight lies in `[0.1, 5.0]`. -/
theorem C4_weight_in_bounds (r : WordRecord) (outcomes : List (Bool × String))
    (h : outcomes ≠ []) :
    0.1 ≤ (recordOutcomes r outcomes).weight ∧ (recordOutcomes r outcomes).weight ≤ 5.0 := by
  induction outcomes generalizing r with
  | nil => exact absurd rfl h
  | cons p ps ih =>
    rcases ps with _ | ⟨q, qs⟩
    · exact update_weight_bounds r p.1 p.2
    · exact ih (update_word_performance r p.1 p.2) (by simp)

/-- Witness for C4 at a concrete record and outcome list. -/
theorem C4_weight_in_bounds_witness :
    0.1 ≤ (recordOutcomes new_word_stats [(false, "t")]).weight ∧
    (recordOutcomes new_word_stats [(false, "t")]).weight ≤ 5.0 :=
  C4_weight_in_bounds new_word_stats [(false, "t")] (by simp)

/-- C6 counterexample: a freshly created record has both
`consecutive_correct = 0` and `consecutive_wrong = 0`, so it is false that
exactly one of them is non-zero at any time. -/
theorem C6_counterexample :
    ¬ ((new_word_stats.consecutive_correct ≠ 0 ∧ new_word_stats.consecutive_wrong = 0) ∨
       (new_word_stats.consecutive_correct = 0 ∧ new_word_stats.consecutive_wrong ≠ 0)) := by
  decide

lemma update_sum_inv (r : WordRecord) (b : Bool) (now : String)
    (h : r.total_attempts = r.correct_count + r.wrong_count) :
    (update_word_performance r b now).total_attempts
      = (update_word_performance r b now).correct_count
        + (update_word_performance r b now).wrong_count := by
  cases b <;> simp [update_word_performance] <;> omega

lemma update_exactly_one (r : WordRecord) (b : Bool) (now : String) :
    ((update_word_performance r b now).consecutive_correct ≠ 0 ∧
      (update_word_performance r b now).consecutive_wrong = 0) ∨
    ((update_word_performance r b now).consecutive_correct = 0 ∧
      (update_word_performance r b now).consecutive_wrong ≠ 0) := by
  cases b
  · right; simp [update_word_performance]
  · left; simp [update_word_performance]

lemma recordOutcomes_inv (outcomes : List (Bool × String)) (r : WordRecord)
    (h1 : r.total_attempts = r.correct_count + r.wrong_count)
    (h2 : r.consecutive_correct = 0 ∨ r.consecutive_wrong = 0) :
    (recordOutcomes r outcomes).total_attempts
      = (recordOutcomes r outcomes).correct_count + (recordOutcomes r outcomes).wrong_count ∧
    ((recordOutcomes r outcomes).consecutive_correct = 0 ∨
      (recordOutcomes r outcomes).consecutive_wrong = 0) ∧
    (outcomes ≠ [] →
      ((recordOutcomes r outcomes).consecutive_correct ≠ 0 ∧
        (recordOutcomes r outcomes).consecutive_wrong = 0) ∨
      ((recordOutcomes r outcomes).consecutive_correct = 0 ∧
        (recordOutcomes r outcomes).consecutive_wrong ≠ 0)) := by
  induction outcomes generalizing r with
  | nil => exact ⟨h1, h2, fun hc => absurd rfl hc⟩
  | cons p ps ih =>
    have hstep := update_exactly_one r p.1 p.2
    have hsum := update_sum_inv r p.1 p.2 h1
    have hATm : (update_word_performance r p.1 p.2).consecutive_correct = 0 ∨
        (update_word_performance r p.1 p.2).consecutive_wrong = 0 := by
      rcases hstep with ⟨_, hz⟩ | ⟨hz, _⟩
      · exact Or.inr hz
      · exact Or.inl hz
    have hrec : recordOutcomes r (p :: ps)
        = recordOutcomes (update_word_performance r p.1 p.2) ps := rfl
    rcases ps with _ | ⟨q, qs⟩
    · exact ⟨hsum, hATm, fun _ => hstep⟩
    · have := ih (update_word_performance r p.1 p.2) hsum hATm
      rw [hrec]
      exact ⟨this.1, this.2.1, fun _ => this.2.2 (by simp)⟩

/-- C6 amended: starting from a freshly created (or just-reset) record and
applying any sequence of `recordOutcome` calls, `total_attempts` always equals
`correct_count + wrong_count`, at most one of `consecutive_correct` /
`consecutive_wrong` is non-zero (both are zero for a fresh or reset record),
and after at least one outcome exactly one of them is non-zero. -/
theorem C6_amended_streak_invariant (outcomes : List (Bool × String)) :
    (recordOutcomes new_word_stats outcomes).total_attempts
      = (recordOutcomes new_word_stats outcomes).correct_count
        + (recordOutcomes new_word_stats outcomes).wrong_count ∧
    ((recordOutcomes new_word_stats outcomes).consecutive_correct = 0 ∨
      (recordOutcomes new_word_stats outcomes).consecutive_wrong = 0) ∧
    (outcomes ≠ [] →
      ((recordOutcomes new_word_stats outcomes).consecutive_correct ≠ 0 ∧
        (recordOutcomes new_word_stats outcomes).consecutive_wrong = 0) ∨
      ((recordOutcomes new_word_stats outcomes).consecutive_correct = 0 ∧
        (recordOutcomes new_word_stats outcomes).consecutive_wrong ≠ 0)) :=
  recordOutcomes_inv outcomes new_word_stats rfl (Or.inl rfl)

/-- Witness for C6 (amended) on a concrete outcome sequence. -/
theorem C6_amended_streak_invariant_witness :
    (recordOutcomes new_word_stats [(true, "t")]).total_attempts
      = (recordOutcomes new_word_stats [(true, "t")]).correct_count
        + (recordOutcomes new_word_stats [(true, "t")]).wrong_count ∧
    (((recordOutcomes new_word_stats [(true, "t")]).consecutive_correct ≠ 0 ∧
      (recordOutcomes new_word_stats [(true, "t")]).consecutive_wrong = 0) ∨
     ((recordOutcomes new_word_stats [(true, "t")]).consecutive_correct = 0 ∧
      (recordOutcomes new_word_stats [(true, "t")]).consecutive_wrong ≠ 0)) :=
  ⟨(C6_amended_streak_invariant [(true, "t")]).1,
   (C6_amended_streak_invariant [(true, "t")]).2.2 (by simp)⟩

lemma base_weight_ge (r : WordRecord) : 0.3 ≤ base_weight_of r := by
  simp only [base_weight_of]
  split_ifs <;> norm_num

lemma attempt_mult_ge (r : WordRecord) : 0.9 ≤ attempt_modifier_of r := by
  unfold attempt_modifier_of
  split_ifs <;> norm_num

/-- C8: after 3 consecutive correct outcomes from any starting record the
streak multiplier 0.5 applies, and the stored weight is at most
`base * 0.5 * attempt-mult` computed on the resulting record: the clamp never
raises the product above this bound. -/
theorem C8_streak_dominance (r : WordRecord) (n1 n2 n3 : String) :
    consecutive_modifier_of
        (update_word_performance
          (update_word_performance (update_word_performance r true n1) true n2) true n3)
      = 0.5 ∧
    (update_word_performance
        (update_word_performance (update_word_performance r true n1) true n2) true n3).weight
      ≤ base_weight_of
          (update_word_performance
            (update_word_performance (update_word_performance r true n1) true n2) true n3)
        * 0.5
        * attempt_modifier_of
            (update_word_performance
              (update_word_performance (update_word_performance r true n1) true n2) true n3) := by
  set r3 := update_word_performance
      (update_word_performance (update_word_performance r true n1) true n2) true n3 with hr3
  have hcc : r3.consecutive_correct = r.consecutive_correct + 3 := by
    rw [hr3]; simp [update_word_performance]
  have hmod : consecutive_modifier_of r3 = 0.5 := by
    unfold consecutive_modifier_of
    rw [if_pos (by omega)]
  refine ⟨hmod, ?_⟩
  have htot : r3.total_attempts = r.total_attempts + 3 := by
    rw [hr3]
    rw [update_total_attempts, update_total_attempts, update_total_attempts]
  have hb := base_weight_ge r3
  have ha := attempt_mult_ge r3
  have hprod : (0.1 : ℚ) ≤ base_weight_of r3 * 0.5 * attempt_modifier_of r3 := by
    nlinarith
  have hw : r3.weight = calculate_adaptive_weight r3 := by
    rw [hr3]; exact update_weight_eq _ _ _
  rw [hw]
  unfold calculate_adaptive_weight
  rw [if_neg (by omega)]
  rw [hmod]
  exact max_le hprod (min_le_right _ _)

/-- Trim of leading and trailing whitespace on the character list of a
string, modelling Python `str.strip()`. -/
def trimList (cs : List Char) : List Char :=
  ((cs.dropWhile Char.isWhitespace).reverse.dropWhile Char.isWhitespace).reverse

/-- ASCII lowercasing of a string, modelling Python `str.lower()`. -/
def pyLower (s : String) : String := String.mk (s.data.map Char.toLower)

/-- `s.strip().lower()` as a character list. -/
def normStr (s : String) : List Char := (trimList s.data).map Char.toLower

/-- Helper for `splitWs`: `acc` holds the characters of the token currently
being read, in reverse order. -/
def splitWsAux : List Char → List Char → List (List Char)
  | [], acc => if acc = [] then [] else [acc.reverse]
  | c :: cs, acc =>
    if c.isWhitespace then
      if acc = [] then splitWsAux cs [] else acc.reverse :: splitWsAux cs []
    else splitWsAux cs (c :: acc)

/-- Split on whitespace runs, discarding empty pieces: Python `str.split()`
with no argument. -/
def splitWs (cs : List Char) : List (List Char) := splitWsAux cs []

/-- The body of the `for meaning in valid_meanings` loop of
`validate_user_input` (`src/utils.py` lines 119-142): exact match, the
single-word complete-token rule, or the multi-word token-subset rule. -/
def meaningMatches (ui : List Char) (meaning : String) : Bool :=
  let mc := normStr meaning
  if ui = mc then true
  else
    let uw := splitWs ui
    let mw := splitWs mc
    if uw.length = 1 ∧ 3 ≤ (uw.headD []).length then decide ((uw.headD []) ∈ mw)
    else if 1 < uw.length then decide (∀ u ∈ uw, u ∈ mw)
    else false

/-- `validate_user_input` of `src/utils.py` (lines 110-144). The guard
`not user_input` of the source is an empty-string test (a whitespace-only
string is truthy in Python), hence the `user_input.data = []` condition. -/
def validate_user_input (user_input : String) (valid_meanings : List String) : Bool :=
  if user_input.data = [] ∨ valid_meanings = [] then false
  else valid_meanings.any (meaningMatches (normStr user_input))

lemma normStr_of_data_nil (s : String) (h : s.data = []) : normStr s = [] := by
  simp [normStr, trimList, h]

lemma validate_eq_any (input : String) (meanings : List String) (h : input.data ≠ []) :
    validate_user_input input meanings = meanings.any (meaningMatches (normStr input)) := by
  unfold validate_user_input
  rcases eq_or_ne meanings [] with hm | hm
  · subst hm; simp
  · rw [if_neg]
    simp [h, hm]

lemma splitWs_nil : splitWs [] = [] := rfl

lemma bool_eq_of_iff {a b : Bool} (h : a = true ↔ b = true) : a = b := by
  cases a <;> cases b <;> simp_all

lemma meaningMatches_single (t : List Char) (m : String) (h2 : splitWs t = [t]) :
    (meaningMatches t m = true) ↔
      (t = normStr m ∨ (3 ≤ t.length ∧ t ∈ splitWs (normStr m))) := by
  simp only [meaningMatches, h2]
  by_cases he : t = normStr m
  · simp [he]
  · by_cases hlen : 3 ≤ t.length
    · simp [he, hlen]
    · simp [he, hlen]

/-- C2: when the normalized input is exactly one whitespace-delimited token
`t`, validation succeeds for a token of length ≥ 3 iff `t` equals a whole
normalized meaning or equals one of the whitespace-delimited tokens of some
meaning, and for a token of length < 3 only an exact whole-meaning match
validates. -/
theorem C2_single_token_rule (input : String) (meanings : List String) (t : List Char)
    (h1 : normStr input = t) (h2 : splitWs t = [t]) :
    (3 ≤ t.length →
      (validate_user_input input meanings = true ↔
        ∃ m ∈ meanings, t = normStr m ∨ t ∈ splitWs (normStr m))) ∧
    (t.length < 3 →
      (validate_user_input input meanings = true ↔ ∃ m ∈ meanings, t = normStr m)) := by
  have ht : t ≠ [] := by
    intro hnil
    rw [hnil] at h2
    simp [splitWs, splitWsAux] at h2
  have hd : input.data ≠ [] := by
    intro hnil
    exact ht (h1.symm.trans (normStr_of_data_nil input hnil))
  rw [validate_eq_any input meanings hd, h1]
  constructor
  · intro h3
    rw [List.any_eq_true]
    simp only [meaningMatches_single t _ h2, h3, true_and]
  · intro h3
    have h4 : ¬ (3 ≤ t.length) := by omega
    rw [List.any_eq_true]
    simp only [meaningMatches_single t _ h2, h4, false_and, or_false]

/-- Witness for C2 on the examples of the specification. -/
theorem C2_single_token_rule_witness :
    validate_user_input "ke" ["ke arah", "menuju"] = false ∧
    validate_user_input "ke" ["ke"] = true := by
  constructor
  · have h := (C2_single_token_rule "ke" ["ke arah", "menuju"] (['k', 'e'])
      (by decide) (by decide)).2 (by decide)
    have hno : ¬ ∃ m ∈ (["ke arah", "menuju"] : List String), ['k', 'e'] = normStr m := by
      decide
    cases hb : validate_user_input "ke" ["ke arah", "menuju"]
    · rfl
    · exact absurd (h.mp hb) hno
  · exact ((C2_single_token_rule "ke" ["ke"] (['k', 'e'])
      (by decide) (by decide)).2 (by decide)).mpr (by decide)

lemma meaningMatches_multi (ui : List Char) (m : String) (u1 u2 : List Char)
    (rest : List (List Char)) (huw : splitWs ui = u1 :: u2 :: rest) :
    (meaningMatches ui m = true) ↔
      (ui = normStr m ∨ ∀ u ∈ splitWs ui, u ∈ splitWs (normStr m)) := by
  simp only [meaningMatches, huw]
  by_cases he : ui = normStr m
  · simp [he]
  · simp [he]

lemma validate_multi (input : String) (meanings : List String)
    (h : 1 < (splitWs (normStr input)).length) :
    validate_user_input input meanings = true ↔
      ∃ m ∈ meanings, ∀ u ∈ splitWs (normStr input), u ∈ splitWs (normStr m) := by
  have hd : input.data ≠ [] := by
    intro hnil
    rw [normStr_of_data_nil input hnil, splitWs_nil] at h
    simp at h
  obtain ⟨u1, L1, hL⟩ : ∃ a L, splitWs (normStr input) = a :: L := by
    cases hsp : splitWs (normStr input) with
    | nil => rw [hsp] at h; simp at h
    | cons a L => exact ⟨a, L, rfl⟩
  obtain ⟨u2, L2, hL2⟩ : ∃ b M, L1 = b :: M := by
    cases hsp : L1 with
    | nil => rw [hsp] at hL; rw [hL] at h; simp at h
    | cons b M => exact ⟨b, M, rfl⟩
  rw [hL2] at hL
  rw [validate_eq_any input meanings hd, List.any_eq_true]
  constructor
  · rintro ⟨m, hm, hmm⟩
    refine ⟨m, hm, ?_⟩
    rcases (meaningMatches_multi (normStr input) m u1 u2 L2 hL).mp hmm with he | hsub
    · rw [he]
      exact fun u hu => hu
    · exact hsub
  · rintro ⟨m, hm, hsub⟩
    exact ⟨m, hm, (meaningMatches_multi (normStr input) m u1 u2 L2 hL).mpr (Or.inr hsub)⟩

lemma validate_perm (input : String) {m1 m2 : List String} (hp : m1.Perm m2) :
    validate_user_input input m1 = validate_user_input input m2 := by
  by_cases hd : input.data = []
  · unfold validate_user_input
    rw [if_pos (Or.inl hd), if_pos (Or.inl hd)]
  · rw [validate_eq_any input m1 hd, validate_eq_any input m2 hd]
    apply bool_eq_of_iff
    rw [List.any_eq_true, List.any_eq_true]
    constructor
    · rintro ⟨m, hm, hmm⟩
      exact ⟨m, hp.mem_iff.mp hm, hmm⟩
    · rintro ⟨m, hm, hmm⟩
      exact ⟨m, hp.mem_iff.mpr hm, hmm⟩

/-- C3: for an input normalizing to more than one token, validation succeeds
iff the set of input tokens is contained in the token set of some accepted
meaning (the exact-match branch is subsumed); consequently the result only
depends on the set of input tokens and is invariant under permuting the
meanings list. -/
theorem C3_multi_token_subset (input : String) (meanings : List String)
    (h : 1 < (splitWs (normStr input)).length) :
    (validate_user_input input meanings = true ↔
      ∃ m ∈ meanings, ∀ u ∈ splitWs (normStr input), u ∈ splitWs (normStr m)) ∧
    (∀ input2 : String, 1 < (splitWs (normStr input2)).length →
      (∀ u : List Char, u ∈ splitWs (normStr input) ↔ u ∈ splitWs (normStr input2)) →
      validate_user_input input meanings = validate_user_input input2 meanings) ∧
    (∀ meanings2 : List String, meanings.Perm meanings2 →
      validate_user_input input meanings = validate_user_input input meanings2) := by
  refine ⟨validate_multi input meanings h, ?_, ?_⟩
  · intro input2 h2 hiff
    apply bool_eq_of_iff
    rw [validate_multi input meanings h, validate_multi input2 meanings h2]
    constructor
    · rintro ⟨m, hm, hs⟩
      exact ⟨m, hm, fun u hu => hs u ((hiff u).mpr hu)⟩
    · rintro ⟨m, hm, hs⟩
      exact ⟨m, hm, fun u hu => hs u ((hiff u).mp hu)⟩
  · intro meanings2 hp
    exact validate_perm input hp

/-- Witness for C3 on the token-reordering example of the specification. -/
theorem C3_multi_token_subset_witness :
    validate_user_input "tinggal tempat" ["rumah", "tempat tinggal"] = true :=
  ((C3_multi_token_subset "tinggal tempat" ["rumah", "tempat tinggal"]
    (by decide)).1).mpr (by decide)

/-- C7 counterexample: a whitespace-only (non-empty) input is not rejected by
the emptiness guard of the source, and it validates by exact match against a
meaning that also strips to the empty string, so the claim that every
whitespace-only input yields false regardless of the meanings list is wrong. -/
theorem C7_counterexample : validate_user_input " " [" "] = true := by decide

/-- C7 amended: the validator returns false for an empty-string input and for
an empty meanings list; a non-empty whitespace-only input returns false
unless some accepted meaning also normalizes to the empty string, in which
case the exact-match branch returns true. It never raises (it is a total
function). -/
theorem C7_amended_degradation (input : String) (meanings : List String) :
    (input = "" → validate_user_input input meanings = false) ∧
    (meanings = [] → validate_user_input input meanings = false) ∧
    (normStr input = [] → (∀ m ∈ meanings, normStr m ≠ []) →
      validate_user_input input meanings = false) ∧
    (input ≠ "" → normStr input = [] → (∃ m ∈ meanings, normStr m = []) →
      validate_user_input input meanings = true) := by
  refine ⟨?_, ?_, ?_, ?_⟩
  · intro h
    subst h
    unfold validate_user_input
    rw [if_pos (Or.inl rfl)]
  · intro h
    subst h
    unfold validate_user_input
    rw [if_pos (Or.inr rfl)]
  · intro hn hall
    by_cases hd : input.data = []
    · unfold validate_user_input
      rw [if_pos (Or.inl hd)]
    · rw [validate_eq_any input meanings hd]
      rw [List.any_eq_false]
      intro m hm
      simp only [meaningMatches, hn, splitWs_nil]
      rw [if_neg (fun hc => hall m hm hc.symm)]
      simp
  · rintro hne hn ⟨m, hm, hmnil⟩
    have hd : input.data ≠ [] := by
      intro hdd
      apply hne
      cases input with
      | mk l =>
        cases hdd
        rfl
    rw [validate_eq_any input meanings hd, List.any_eq_true]
    refine ⟨m, hm, ?_⟩
    simp [meaningMatches, hn, hmnil]

/-- Witness for C7 (amended) at concrete inputs. -/
theorem C7_amended_degradation_witness :
    validate_user_input "" ["x"] = false ∧
    validate_user_input "  " ["x"] = false ∧
    validate_user_input " " ["y", "\t"] = true :=
  ⟨(C7_amended_degradation "" ["x"]).1 rfl,
   (C7_amended_degradation "  " ["x"]).2.2.1 (by decide) (by decide),
   (C7_amended_degradation " " ["y", "\t"]).2.2.2 (by decide) (by decide) (by decide)⟩

lemma char_toNat_ofNat {n : ℕ} (h : n.isValidChar) : (Char.ofNat n).toNat = n := by
  unfold Char.ofNat
  rw [dif_pos h]
  rfl

lemma toLower_fix (c : Char) (h : ¬(c.toNat ≥ 65 ∧ c.toNat ≤ 90)) : c.toLower = c := by
  simp only [Char.toLower]
  rw [if_neg h]

lemma toLower_idem (c : Char) : Char.toLower (Char.toLower c) = Char.toLower c := by
  by_cases h : c.toNat ≥ 65 ∧ c.toNat ≤ 90
  · obtain ⟨h65, h90⟩ := h
    have h1 : Char.toLower c = Char.ofNat (c.toNat + 32) := by
      simp only [Char.toLower]
      rw [if_pos ⟨h65, h90⟩]
    have hv : (c.toNat + 32).isValidChar := Or.inl (by omega)
    have ht : (Char.toLower c).toNat = c.toNat + 32 := by
      rw [h1]
      exact char_toNat_ofNat hv
    apply toLower_fix
    rw [ht]
    omega
  · rw [toLower_fix c h]
    exact toLower_fix c h

lemma mem_normStr_toLower_fix (s : String) (c : Char) (h : c ∈ normStr s) :
    c.toLower = c := by
  unfold normStr at h
  rcases List.mem_map.mp h with ⟨d, _, rfl⟩
  exact toLower_idem d

lemma splitWsAux_sound (cs : List Char) : ∀ (acc : List Char),
    (∀ c ∈ acc, c.isWhitespace = false) →
    ∀ tk ∈ splitWsAux cs acc,
      tk ≠ [] ∧ ∀ c ∈ tk, c.isWhitespace = false ∧ (c ∈ cs ∨ c ∈ acc) := by
  induction cs with
  | nil =>
    intro acc hacc tk htk
    simp only [splitWsAux] at htk
    by_cases ha : acc = []
    · rw [if_pos ha] at htk
      cases htk
    · rw [if_neg ha] at htk
      have htk2 : tk = acc.reverse := by simpa using htk
      subst htk2
      refine ⟨by simpa using ha, ?_⟩
      intro c hc
      have hc2 : c ∈ acc := by simpa using hc
      exact ⟨hacc c hc2, Or.inr hc2⟩
  | cons d ds ih =>
    intro acc hacc tk htk
    simp only [splitWsAux] at htk
    by_cases hw : d.isWhitespace = true
    · rw [if_pos hw] at htk
      by_cases ha : acc = []
      · rw [if_pos ha] at htk
        have hres := ih [] (by simp) tk htk
        refine ⟨hres.1, fun c hc => ⟨(hres.2 c hc).1, ?_⟩⟩
        rcases (hres.2 c hc).2 with h | h
        · exact Or.inl (List.mem_cons_of_mem d h)
        · cases h
      · rw [if_neg ha] at htk
        rcases List.mem_cons.mp htk with rfl | htk2
        · refine ⟨by simpa using ha, fun c hc => ?_⟩
          have hc2 : c ∈ acc := by simpa using hc
          exact ⟨hacc c hc2, Or.inr hc2⟩
        · have hres := ih [] (by simp) tk htk2
          refine ⟨hres.1, fun c hc => ⟨(hres.2 c hc).1, ?_⟩⟩
          rcases (hres.2 c hc).2 with h | h
          · exact Or.inl (List.mem_cons_of_mem d h)
          · cases h
    · rw [if_neg hw] at htk
      have hdf : d.isWhitespace = false := by simpa using hw
      have hacc2 : ∀ c ∈ d :: acc, c.isWhitespace = false := by
        intro c hc
        rcases List.mem_cons.mp hc with rfl | hc2
        · exact hdf
        · exact hacc c hc2
      have hres := ih (d :: acc) hacc2 tk htk
      refine ⟨hres.1, fun c hc => ⟨(hres.2 c hc).1, ?_⟩⟩
      rcases (hres.2 c hc).2 with h | h
      · exact Or.inl (List.mem_cons_of_mem d h)
      · rcases List.mem_cons.mp h with rfl | h2
        · exact Or.inl (List.mem_cons_self _ _)
        · exact Or.inr h2

lemma splitWsAux_all_nonws (t : List Char) : ∀ (rest acc : List Char),
    (∀ c ∈ t, c.isWhitespace = false) →
    splitWsAux (t ++ rest) acc = splitWsAux rest (t.reverse ++ acc) := by
  induction t with
  | nil =>
    intro rest acc _
    simp
  | cons d ds ih =>
    intro rest acc h
    have hd : d.isWhitespace = false := h d (List.mem_cons_self _ _)
    have step : splitWsAux ((d :: ds) ++ rest) acc = splitWsAux (ds ++ rest) (d :: acc) := by
      simp [splitWsAux, hd]
    rw [step, ih rest (d :: acc) (fun c hc => h c (List.mem_cons_of_mem d hc))]
    congr 1
    simp

lemma splitWs_single_token (t : List Char) (hne : t ≠ [])
    (h : ∀ c ∈ t, c.isWhitespace = false) : splitWs t = [t] := by
  have haux := splitWsAux_all_nonws t [] [] h
  rw [List.append_nil] at haux
  unfold splitWs
  rw [haux]
  simp only [splitWsAux, List.append_nil]
  rw [if_neg (by simpa using hne)]
  simp

lemma splitWs_double_token (t : List Char) (hne : t ≠ [])
    (h : ∀ c ∈ t, c.isWhitespace = false) : splitWs (t ++ ' ' :: t) = [t, t] := by
  unfold splitWs
  rw [splitWsAux_all_nonws t (' ' :: t) [] h]
  simp only [List.append_nil, splitWsAux]
  rw [if_pos (by decide)]
  rw [if_neg (by simpa using hne)]
  have hone := splitWs_single_token t hne h
  unfold splitWs at hone
  rw [hone]
  simp

lemma dropWhile_eq_self_of_head (l : List Char)
    (h : ∀ c ∈ l.take 1, c.isWhitespace = false) :
    l.dropWhile Char.isWhitespace = l := by
  cases l with
  | nil => rfl
  | cons a l2 =>
    have ha : a.isWhitespace = false := h a (by simp)
    simp [List.dropWhile_cons, ha]

lemma trimList_eq_self (l : List Char) (h1 : ∀ c ∈ l.take 1, c.isWhitespace = false)
    (h2 : ∀ c ∈ l.reverse.take 1, c.isWhitespace = false) : trimList l = l := by
  unfold trimList
  rw [dropWhile_eq_self_of_head l h1, dropWhile_eq_self_of_head l.reverse h2,
    List.reverse_reverse]

lemma map_toLower_eq_self (l : List Char) (h : ∀ c ∈ l, c.toLower = c) :
    l.map Char.toLower = l := by
  induction l with
  | nil => rfl
  | cons a l2 ih =>
    have ha : a.toLower = a := h a (by simp)
    have hrest := ih (fun c hc => h c (List.mem_cons_of_mem a hc))
    simp [ha, hrest]

/-- C9: a token `t` of length < 3 that occurs as a whole token of some
normalized accepted meaning but equals no whole normalized meaning fails
validation on its own (the single-word length guard blocks it), yet the
doubled input `t ++ " " ++ t` validates, because the multi-word subset rule
has no length guard and collapses duplicates. -/
theorem C9_short_token_doubling (t : List Char) (m : String) (meanings : List String)
    (hm : m ∈ meanings) (hmem : t ∈ splitWs (normStr m)) (hlen : t.length < 3)
    (hne : ∀ m2 ∈ meanings, t ≠ normStr m2) :
    validate_user_input (String.mk t) meanings = false ∧
    validate_user_input (String.mk (t ++ ' ' :: t)) meanings = true := by
  obtain ⟨htne, hchars⟩ :=
    splitWsAux_sound (normStr m) [] (by simp) t
      (show t ∈ splitWsAux (normStr m) [] from hmem)
  have hnws : ∀ c ∈ t, c.isWhitespace = false := fun c hc => (hchars c hc).1
  have hfix : ∀ c ∈ t, c.toLower = c := by
    intro c hc
    rcases (hchars c hc).2 with h | h
    · exact mem_normStr_toLower_fix m c h
    · cases h
  have hdata : (String.mk t).data = t := rfl
  have htake : ∀ c ∈ t.take 1, c.isWhitespace = false :=
    fun c hc => hnws c (List.take_subset 1 t hc)
  have htakerev : ∀ c ∈ t.reverse.take 1, c.isWhitespace = false :=
    fun c hc => hnws c (List.mem_reverse.mp (List.take_subset 1 t.reverse hc))
  have hnorm1 : normStr (String.mk t) = t := by
    unfold normStr
    rw [hdata, trimList_eq_self t htake htakerev, map_toLower_eq_self t hfix]
  have hd1 : (String.mk t).data ≠ [] := by
    rw [hdata]
    exact htne
  have hsplit1 : splitWs t = [t] := splitWs_single_token t htne hnws
  constructor
  · rw [validate_eq_any _ meanings hd1, hnorm1, List.any_eq_false]
    intro m2 hm2
    simp only [meaningMatches, hsplit1]
    rw [if_neg (hne m2 hm2)]
    have h3 : ¬(3 ≤ t.length) := by omega
    simp [h3]
  · have hdata2 : (String.mk (t ++ ' ' :: t)).data = t ++ ' ' :: t := rfl
    have hd2 : (String.mk (t ++ ' ' :: t)).data ≠ [] := by
      rw [hdata2]
      intro hc
      simp at hc
    have hfix2 : ∀ c ∈ t ++ ' ' :: t, c.toLower = c := by
      intro c hc
      rcases List.mem_append.mp hc with h | h
      · exact hfix c h
      · rcases List.mem_cons.mp h with rfl | h2
        · decide
        · exact hfix c h2
    have htake2 : ∀ c ∈ (t ++ ' ' :: t).take 1, c.isWhitespace = false := by
      cases ht : t with
      | nil => exact absurd ht htne
      | cons a t2 =>
        intro c hc
        have hca : c = a := by
          rw [List.cons_append] at hc
          simpa using hc
        subst hca
        exact hnws c (ht ▸ List.mem_cons_self _ _)
    have htakerev2 : ∀ c ∈ (t ++ ' ' :: t).reverse.take 1, c.isWhitespace = false := by
      cases htr : t.reverse with
      | nil => exact absurd (by simpa using htr) htne
      | cons b l2 =>
        intro c hc
        rw [List.reverse_append, List.reverse_cons, htr] at hc
        have hcb : c = b := by simpa using hc
        subst hcb
        have hbt : c ∈ t := by
          rw [← List.mem_reverse, htr]
          exact List.mem_cons_self _ _
        exact hnws c hbt
    have hnorm2 : normStr (String.mk (t ++ ' ' :: t)) = t ++ ' ' :: t := by
      unfold normStr
      rw [hdata2, trimList_eq_self _ htake2 htakerev2, map_toLower_eq_self _ hfix2]
    have hsplit2 : splitWs (t ++ ' ' :: t) = [t, t] := splitWs_double_token t htne hnws
    rw [validate_eq_any _ meanings hd2, hnorm2, List.any_eq_true]
    refine ⟨m, hm, ?_⟩
    simp only [meaningMatches, hsplit2]
    by_cases he : (t ++ ' ' :: t) = normStr m
    · rw [if_pos he]
    · rw [if_neg he]
      have hall : ∀ u ∈ [t, t], u ∈ splitWs (normStr m) := by
        intro u hu
        rcases List.mem_cons.mp hu with rfl | hu2
        · exact hmem
        · rcases List.mem_cons.mp hu2 with rfl | hu3
          · exact hmem
          · cases hu3
      simp [hall]

/-- Witness for C9 at the token "ke" inside the meaning "ke arah". -/
theorem C9_short_token_doubling_witness :
    validate_user_input (String.mk ['k', 'e']) ["ke arah", "menuju"] = false ∧
    validate_user_input (String.mk (['k', 'e'] ++ ' ' :: ['k', 'e'])) ["ke arah", "menuju"]
      = true :=
  C9_short_token_doubling ['k', 'e'] "ke arah" ["ke arah", "menuju"]
    (by decide) (by decide) (by decide) (by decide)

/-- One row of the vocabulary data frame: word, part-of-speech class, CEFR
level. -/
structure VocabEntry where
  word : String
  cls : String
  level : String
  deriving Repr, DecidableEq

/-- The composite dictionary key built in `word_picker.py`
(`f"{word}_{class}_{level}"`). -/
def word_key (e : VocabEntry) : String := e.word ++ "_" ++ e.cls ++ "_" ++ e.level

/-- The in-memory `word_weights` dictionary, as an association list. -/
abbrev WeightStore := List (String × WordRecord)

/-- Dictionary lookup on the association list. -/
def storeLookup : WeightStore → String → Option WordRecord
  | [], _ => none
  | (k, r) :: rest, key => if k = key then some r else storeLookup rest key

/-- `self.word_weights.get(word_key, {}).get('weight', 1.0)` of
`get_weighted_word`: a missing record defaults to weight 1.0. -/
def lookupWeight (store : WeightStore) (key : String) : ℚ :=
  match storeLookup store key with
  | some r => r.weight
  | none => 1.0

/-- The level filter of `get_weighted_word` (`word_picker.py` lines 74-78).
`if level:` in Python is falsy both for `None` and for the empty string. -/
def levelCandidates (vocab : List VocabEntry) (level : Option String) : List VocabEntry :=
  match level with
  | some l => if l = "" then vocab else vocab.filter (fun e => e.level = pyLower l)
  | none => vocab

/-- The six valid CEFR levels, the documented input domain of the filter. -/
def validLevels : List String := ["a1", "a2", "b1", "b2", "c1", "c2"]

/-- `random.choices(items, weights=weights, k=1)[0]`, with the pseudo-random
draw supplied as the index `pick`: it raises (modelled as `none`) exactly
when the total weight is not positive (or the population is empty), and
otherwise returns an element of `items`. -/
def weighted_choice {α : Type} [DecidableEq α] (items : List α) (weights : List ℚ)
    (pick : ℕ) : Option α :=
  if items = [] ∨ weights.sum ≤ 0 then none
  else items.get? (pick % items.length)

/-- `get_weighted_word` of `word_picker.py` (lines 64-105): filter by level,
return `None` on an empty candidate set, otherwise weighted random selection
with a uniform-random fallback (`random.choice`) if the weighted draw raises. -/
def get_weighted_word (vocab : List VocabEntry) (store : WeightStore)
    (level : Option String) (pick : ℕ) : Option VocabEntry :=
  let filtered := levelCandidates vocab level
  if filtered = [] then none
  else
    let weights := filtered.map (fun e => lookupWeight store (word_key e))
    match weighted_choice filtered weights pick with
    | some w => some w
    | none => filtered.get? (pick % filtered.length)

lemma get_weighted_word_isSome (vocab : List VocabEntry) (store : WeightStore)
    (level : Option String) (pick : ℕ) (h : levelCandidates vocab level ≠ []) :
    ∃ e, get_weighted_word vocab store level pick = some e ∧
      e ∈ levelCandidates vocab level := by
  have hlen : 0 < (levelCandidates vocab level).length := List.length_pos.mpr h
  have hidx : pick % (levelCandidates vocab level).length
      < (levelCandidates vocab level).length := Nat.mod_lt _ hlen
  unfold get_weighted_word
  rw [if_neg h]
  cases hwc : weighted_choice (levelCandidates vocab level)
      ((levelCandidates vocab level).map (fun e => lookupWeight store (word_key e))) pick with
  | none =>
    refine ⟨(levelCandidates vocab level).get ⟨_, hidx⟩, ?_, List.get_mem _ _ _⟩
    simp only [hwc]
    exact List.get?_eq_get hidx
  | some w =>
    refine ⟨w, by simp [hwc], ?_⟩
    unfold weighted_choice at hwc
    by_cases hcond : (levelCandidates vocab level) = [] ∨
        (((levelCandidates vocab level).map
          (fun e => lookupWeight store (word_key e))).sum ≤ 0)
    · rw [if_pos hcond] at hwc
      cases hwc
    · rw [if_neg hcond] at hwc
      exact List.get?_mem hwc

lemma validLevels_ne_empty (l : String) (hl : l ∈ validLevels) : l ≠ "" := by
  have hcases : l = "a1" ∨ l = "a2" ∨ l = "b1" ∨ l = "b2" ∨ l = "c1" ∨ l = "c2" := by
    simpa [validLevels] using hl
  rcases hcases with rfl | rfl | rfl | rfl | rfl | rfl <;> decide

lemma mem_levelCandidates_level (vocab : List VocabEntry) (l : String)
    (hl : l ∈ validLevels) (e : VocabEntry)
    (he : e ∈ levelCandidates vocab (some l)) : e.level = pyLower l := by
  have hne : l ≠ "" := validLevels_ne_empty l hl
  simp only [levelCandidates] at he
  rw [if_neg hne] at he
  have := List.mem_filter.mp he
  simpa using this.2

/-- C5: `get_weighted_word` returns `None` exactly when the set of vocabulary
entries whose level equals the lowercased filter is empty (with no filter:
when the vocabulary is empty), and whenever it returns an entry under a
filter drawn from the valid CEFR levels, that entry's level equals the
lowercased filter. -/
theorem C5_draw_no_words (vocab : List VocabEntry) (store : WeightStore)
    (level : Option String) (pick : ℕ)
    (hval : ∀ l, level = some l → l ∈ validLevels) :
    (∀ l, level = some l →
      (get_weighted_word vocab store level pick = none ↔
        vocab.filter (fun e => e.level = pyLower l) = [])) ∧
    (level = none →
      (get_weighted_word vocab store level pick = none ↔ vocab = [])) ∧
    (∀ e l, get_weighted_word vocab store level pick = some e → level = some l →
      e.level = pyLower l) := by
  have hnone : ∀ hc : levelCandidates vocab level = [],
      get_weighted_word vocab store level pick = none := by
    intro hc
    unfold get_weighted_word
    rw [if_pos hc]
  have key : get_weighted_word vocab store level pick = none ↔
      levelCandidates vocab level = [] := by
    constructor
    · intro hg
      by_contra hc
      obtain ⟨e, he, _⟩ := get_weighted_word_isSome vocab store level pick hc
      rw [hg] at he
      cases he
    · exact hnone
  refine ⟨?_, ?_, ?_⟩
  · intro l hl
    have hne : l ≠ "" := validLevels_ne_empty l (hval l hl)
    subst hl
    rw [key]
    simp only [levelCandidates]
    rw [if_neg hne]
  · intro hl
    subst hl
    rw [key]
    rfl
  · intro e l he hl
    subst hl
    have hc : levelCandidates vocab (some l) ≠ [] := by
      intro hcc
      rw [hnone hcc] at he
      cases he
    obtain ⟨e2, he2, hmem⟩ := get_weighted_word_isSome vocab store (some l) pick hc
    rw [he] at he2
    cases he2
    exact mem_levelCandidates_level vocab l (hval l rfl) e hmem

/-- Witness for C5 at a one-entry vocabulary. -/
theorem C5_draw_no_words_witness :
    (VocabEntry.mk "go" "verb" "a1").level = pyLower "a1" := by
  have hval : ∀ l, (some "a1" : Option String) = some l → l ∈ validLevels := by
    intro l hl
    cases hl
    decide
  have hc : levelCandidates [⟨"go", "verb", "a1"⟩] (some "a1")
      = [(⟨"go", "verb", "a1"⟩ : VocabEntry)] := by decide
  obtain ⟨e, he, hmem⟩ :=
    get_weighted_word_isSome [⟨"go", "verb", "a1"⟩] [] (some "a1") 0 (by rw [hc]; decide)
  rw [hc] at hmem
  have heq : e = ⟨"go", "verb", "a1"⟩ := by simpa using hmem
  subst heq
  exact (C5_draw_no_words [⟨"go", "verb", "a1"⟩] [] (some "a1") 0 hval).2.2
    ⟨"go", "verb", "a1"⟩ "a1" he rfl

lemma storeLookup_mem (store : WeightStore) (key : String) (r : WordRecord)
    (h : storeLookup store key = some r) : (key, r) ∈ store := by
  induction store with
  | nil => cases h
  | cons p rest ih =>
    obtain ⟨k, v⟩ := p
    by_cases hk : k = key
    · subst hk
      rw [storeLookup, if_pos rfl] at h
      cases h
      exact List.mem_cons_self _ _
    · rw [storeLookup, if_neg hk] at h
      exact List.mem_cons_of_mem _ (ih h)

lemma lookupWeight_pos (store : WeightStore) (key : String)
    (hstore : ∀ k r, (k, r) ∈ store → 0.1 ≤ r.weight ∧ r.weight ≤ 5.0) :
    0 < lookupWeight store key := by
  unfold lookupWeight
  cases hs : storeLookup store key with
  | none => norm_num
  | some r =>
    have := (hstore key r (storeLookup_mem store key r hs)).1
    linarith

/-- C10: when every stored weight lies in `[0.1, 5.0]` (missing records
defaulting to 1.0), every candidate weight used by the draw is strictly
positive, their sum is strictly positive, the weighted selection succeeds on
a non-empty candidate subset, and the uniform-random fallback branch of
`get_weighted_word` is never taken. -/
theorem C10_fallback_unreachable (vocab : List VocabEntry) (store : WeightStore)
    (level : Option String) (pick : ℕ)
    (hstore : ∀ k r, (k, r) ∈ store → 0.1 ≤ r.weight ∧ r.weight ≤ 5.0)
    (hne : levelCandidates vocab level ≠ []) :
    (∀ e ∈ levelCandidates vocab level, 0 < lookupWeight store (word_key e)) ∧
    0 < ((levelCandidates vocab level).map (fun e => lookupWeight store (word_key e))).sum ∧
    weighted_choice (levelCandidates vocab level)
        ((levelCandidates vocab level).map (fun e => lookupWeight store (word_key e))) pick
      = (levelCandidates vocab level).get? (pick % (levelCandidates vocab level).length) ∧
    get_weighted_word vocab store level pick
      = weighted_choice (levelCandidates vocab level)
          ((levelCandidates vocab level).map (fun e => lookupWeight store (word_key e))) pick ∧
    get_weighted_word vocab store level pick ≠ none := by
  have hpos : ∀ e ∈ levelCandidates vocab level, 0 < lookupWeight store (word_key e) :=
    fun e _ => lookupWeight_pos store (word_key e) hstore
  have hsum : 0 < ((levelCandidates vocab level).map
      (fun e => lookupWeight store (word_key e))).sum := by
    apply List.sum_pos
    · intro x hx
      rcases List.mem_map.mp hx with ⟨e, he, rfl⟩
      exact hpos e he
    · simp [hne]
  have hcond : ¬((levelCandidates vocab level) = [] ∨
      (((levelCandidates vocab level).map
        (fun e => lookupWeight store (word_key e))).sum ≤ 0)) := by
    push_neg
    exact ⟨hne, hsum⟩
  have hlen : 0 < (levelCandidates vocab level).length := List.length_pos.mpr hne
  have hidx : pick % (levelCandidates vocab level).length
      < (levelCandidates vocab level).length := Nat.mod_lt _ hlen
  have hwc : weighted_choice (levelCandidates vocab level)
      ((levelCandidates vocab level).map (fun e => lookupWeight store (word_key e))) pick
      = (levelCandidates vocab level).get? (pick % (levelCandidates vocab level).length) := by
    unfold weighted_choice
    rw [if_neg hcond]
  have hget : get_weighted_word vocab store level pick
      = weighted_choice (levelCandidates vocab level)
          ((levelCandidates vocab level).map (fun e => lookupWeight store (word_key e)))
          pick := by
    unfold get_weighted_word
    rw [if_neg hne]
    simp only [hwc, List.get?_eq_get hidx]
  refine ⟨hpos, hsum, hwc, hget, ?_⟩
  rw [hget, hwc, List.get?_eq_get hidx]
  simp

/-- Witness for C10 at a one-entry vocabulary and empty store. -/
theorem C10_fallback_unreachable_witness :
    get_weighted_word [⟨"go", "verb", "a1"⟩] [] none 0 ≠ none :=
  (C10_fallback_unreachable [⟨"go", "verb", "a1"⟩] [] none 0
    (by intro k r h; cases h) (by decide)).2.2.2.2

end Oxford
